import Mathlib

/-!
Verification of the `vector-engine` HNSW ANN search engine against its
natural-language specification.

Shallow embedding conventions, used throughout this file:

* Rust `f32` values are modelled as exact rationals (`ℚ`); `f32` bit
  patterns and rounding are not modelled.  Where the code computes a
  Euclidean distance `sqrt(Σ (a_i - b_i)^2)` we model the squared
  distance (Σ (a_i - b_i)^2 : ℚ); `sqrt` is strictly monotone on
  non-negative reals, so every comparison, ordering and arg-min the
  algorithms perform is preserved exactly.
* A Rust panic (failed `assert_eq!`, out-of-bounds slice index,
  `Option::unwrap` on `None`) is modelled by the `Res.crash` outcome.
  Loops whose termination is not structural take explicit fuel and
  report exhaustion as `Res.fuelOut`, which is distinct from both
  success and crash so that a crash result is unambiguous.
* Machine integers (`u8`, `u32`, `u64`, `usize`) are modelled as `Nat`
  and `i8`/`i32` as `Int`; none of the modelled quantities overflow in
  the scenarios covered by the claims, and the CRC32 state is kept
  below `2^32` explicitly.
-/

set_option maxRecDepth 8000

/-- Outcome of running a piece of modelled Rust code: normal completion,
a panic (`crash`), or exhaustion of the modelling fuel (`fuelOut`).
`fuelOut` is an artifact of the embedding, never a program behaviour;
theorems about program results are stated on `ok` outcomes, and crash
counterexamples are stated on `crash` outcomes. -/
inductive Res (α : Type) where
  | ok : α → Res α
  | crash : Res α
  | fuelOut : Res α
deriving DecidableEq, Repr

namespace Res

/-- Monadic bind for `Res`: propagate crashes and fuel exhaustion. -/
def bind : Res α → (α → Res β) → Res β
  | ok a, f => f a
  | crash, _ => crash
  | fuelOut, _ => fuelOut

instance : Monad Res where
  pure := Res.ok
  bind := Res.bind

/-- Extract the payload of an `ok` outcome, if any. -/
def toOption : Res α → Option α
  | ok a => some a
  | _ => none

@[simp] theorem bind_ok (a : α) (f : α → Res β) : bind (ok a) f = f a := rfl

@[simp] theorem bind_crash (f : α → Res β) : bind (crash : Res α) f = crash := rfl

@[simp] theorem bind_fuelOut (f : α → Res β) : bind (fuelOut : Res α) f = fuelOut := rfl

end Res

/-- Indexing `v[i]` of a Rust `Vec`: panics (crashes) when out of bounds. -/
def getPanic (l : List α) (i : Nat) : Res α :=
  match l.get? i with
  | some a => Res.ok a
  | none => Res.crash

@[simp] theorem getPanic_eq (l : List α) (i : Nat) :
    getPanic l i = match l.get? i with
      | some a => Res.ok a
      | none => Res.crash := rfl

/-! ## Quantizer (`src/core/quantization.rs`) -/

namespace Quantizer

/-- Clamp-to-`[-1,1]` step of `Quantizer::quantize_u8`:
Rust `val.max(-1.0).min(1.0)`. -/
def clamp1 (x : ℚ) : ℚ := min 1 (max (-1) x)

/-- One component of `Quantizer::quantize_u8`: the source computes
`scaled = (clamped + 1.0) * 127.5` and then `scaled as u8`.  For
`clamped ∈ [-1, 1]` the scaled value lies in `[0, 255]`, where the Rust
`as u8` cast truncates toward zero, i.e. takes the floor. -/
def quantizeComponent (x : ℚ) : Nat :=
  Int.toNat ⌊(clamp1 x + 1) * (255 / 2 : ℚ)⌋

/-- `Quantizer::quantize_u8` from `src/core/quantization.rs` lines 34-44:
per-component clamp, affine scale, truncating cast to `u8`. -/
def quantize_u8 (v : List ℚ) : List Nat :=
  v.map quantizeComponent

/-- Modelled from the spec (§4.1): the spec's formula for the database
quantizer, `q = round(clamp(x, −1, 1) · 127.5 + 127.5)`, with `round`
being round-half-away-from-zero (the `f32::round` semantics; on the
non-negative values produced here this agrees with Mathlib's `round`,
which rounds halves up). -/
def specQuantizeComponent (x : ℚ) : ℤ :=
  round (clamp1 x * (255 / 2 : ℚ) + (255 / 2 : ℚ))

end Quantizer

/-- Claim C5, counterexample: the spec says each component is mapped by
`round(clamp(x,−1,1)·127.5 + 127.5)`, but the code truncates: at the
component `x = 0` the code produces `127` while the spec formula gives
`round(127.5) = 128`. -/
theorem c5_quantize_rounding_claim_false :
    Quantizer.quantize_u8 [(0 : ℚ)] = [127] ∧
      Quantizer.specQuantizeComponent 0 = 128 ∧
      (127 : ℤ) ≠ 128 := by
  refine ⟨?_, ?_, by decide⟩
  · have h : ⌊((0 : ℚ) + 1) * (255 / 2 : ℚ)⌋ = 127 := by
      rw [Int.floor_eq_iff] <;> norm_num
    simp only [Quantizer.quantize_u8, Quantizer.quantizeComponent, Quantizer.clamp1,
      List.map_cons, List.map_nil]
    norm_num [h]
    decide
  · have h : round ((255 / 2 : ℚ)) = 128 := by
      rw [round_eq, Int.floor_eq_iff] <;> norm_num
    simp only [Quantizer.specQuantizeComponent, Quantizer.clamp1]
    norm_num [h]

/-- Claim C5 as amended: each component `x` is mapped to
`⌊clamp(x,−1,1)·127.5 + 127.5⌋` — the same affine map of `[-1,1]` onto
`[0,255]`, but with truncation (floor) instead of rounding to nearest —
and the result always lies in `[0,255]`. -/
theorem c5_quantize_truncates (x : ℚ) :
    Quantizer.quantizeComponent x =
      Int.toNat ⌊Quantizer.clamp1 x * (255 / 2 : ℚ) + (255 / 2 : ℚ)⌋ ∧
      Quantizer.quantizeComponent x ≤ 255 := by
  constructor
  · unfold Quantizer.quantizeComponent
    ring_nf
  · unfold Quantizer.quantizeComponent Quantizer.clamp1
    have hle : min 1 (max (-1) x) ≤ 1 := min_le_left _ _
    have h2 : (min 1 (max (-1) x) + 1) * (255 / 2 : ℚ) ≤ 255 := by
      nlinarith
    have hfl : ⌊(min 1 (max (-1) x) + 1) * (255 / 2 : ℚ)⌋ ≤ 255 := by
      have := Int.floor_le_floor h2
      simpa using this
    omega

/-! ## CRC32 (the checksum used by `save` and `load` via `crc32fast`)

`crc32fast::Hasher` computes the standard CRC-32/IEEE checksum
(reflected polynomial `0xEDB88320`, initial state `0xFFFFFFFF`, final
xor `0xFFFFFFFF`).  We model it by the reference bit-at-a-time
algorithm, which computes the same function. -/

/-- Reflected CRC-32/IEEE generator polynomial. -/
def crcPoly : Nat := 0xEDB88320

/-- One bit-step of the CRC-32 state update. -/
def crcRound (s : Nat) : Nat :=
  if s % 2 = 1 then (s / 2) ^^^ crcPoly else s / 2

/-- Iterate `crcRound`. -/
def crcRounds : Nat → Nat → Nat
  | 0, s => s
  | k + 1, s => crcRounds k (crcRound s)

/-- Absorb one byte into the CRC-32 state. -/
def crcByteStep (s b : Nat) : Nat := crcRounds 8 (s ^^^ b)

/-- CRC-32/IEEE of a byte sequence, as computed by `crc32fast::Hasher`:
`new()` starts at `0xFFFFFFFF`, `update` absorbs the bytes, `finalize`
xors with `0xFFFFFFFF`. -/
def crc32 (data : List Nat) : Nat :=
  (data.foldl crcByteStep 0xFFFFFFFF) ^^^ 0xFFFFFFFF

theorem crcRound_lt {s : Nat} (hs : s < 2 ^ 32) : crcRound s < 2 ^ 32 := by
  unfold crcRound
  have hdiv : s / 2 < 2 ^ 32 := lt_of_le_of_lt (Nat.div_le_self s 2) hs
  split
  · exact Nat.xor_lt_two_pow hdiv (by decide)
  · exact hdiv

theorem crcRound_inj {s t : Nat} (hs : s < 2 ^ 32) (ht : t < 2 ^ 32)
    (h : crcRound s = crcRound t) : s = t := by
  have hs2 : s / 2 < 2 ^ 31 := by omega
  have ht2 : t / 2 < 2 ^ 31 := by omega
  have hsbit : Nat.testBit (s / 2) 31 = false := Nat.testBit_lt_two_pow hs2
  have htbit : Nat.testBit (t / 2) 31 = false := Nat.testBit_lt_two_pow ht2
  have hpoly : Nat.testBit crcPoly 31 = true := by decide
  unfold crcRound at h
  rcases Nat.mod_two_eq_zero_or_one s with hsm | hsm <;>
    rcases Nat.mod_two_eq_zero_or_one t with htm | htm
  · simp [hsm, htm] at h
    omega
  · simp [hsm, htm] at h
    have := congrArg (fun x => Nat.testBit x 31) h
    simp [Nat.testBit_xor, hsbit, htbit, hpoly] at this
  · simp [hsm, htm] at h
    have := congrArg (fun x => Nat.testBit x 31) h
    simp [Nat.testBit_xor, hsbit, htbit, hpoly] at this
  · simp [hsm, htm] at h
    omega

theorem crcRounds_lt {s : Nat} (k : Nat) (hs : s < 2 ^ 32) :
    crcRounds k s < 2 ^ 32 := by
  induction k generalizing s with
  | zero => exact hs
  | succ k ih => exact ih (crcRound_lt hs)

theorem crcRounds_inj {s t : Nat} (k : Nat) (hs : s < 2 ^ 32) (ht : t < 2 ^ 32)
    (h : crcRounds k s = crcRounds k t) : s = t := by
  induction k generalizing s t with
  | zero => exact h
  | succ k ih =>
      exact crcRound_inj hs ht (ih (crcRound_lt hs) (crcRound_lt ht) h)

theorem crcByteStep_lt {s b : Nat} (hs : s < 2 ^ 32) (hb : b < 256) :
    crcByteStep s b < 2 ^ 32 :=
  crcRounds_lt 8 (Nat.xor_lt_two_pow hs (lt_trans hb (by norm_num)))

theorem crcByteStep_inj_state {s t b : Nat} (hs : s < 2 ^ 32) (ht : t < 2 ^ 32)
    (hb : b < 256) (h : crcByteStep s b = crcByteStep t b) : s = t := by
  have hb32 : b < 2 ^ 32 := lt_trans hb (by norm_num)
  have := crcRounds_inj 8 (Nat.xor_lt_two_pow hs hb32) (Nat.xor_lt_two_pow ht hb32) h
  rwa [Nat.xor_left_inj] at this

theorem crcByteStep_inj_byte {s b c : Nat} (hs : s < 2 ^ 32) (hb : b < 256)
    (hc : c < 256) (h : crcByteStep s b = crcByteStep s c) : b = c := by
  have hb32 : b < 2 ^ 32 := lt_trans hb (by norm_num)
  have hc32 : c < 2 ^ 32 := lt_trans hc (by norm_num)
  have := crcRounds_inj 8 (Nat.xor_lt_two_pow hs hb32) (Nat.xor_lt_two_pow hs hc32) h
  rwa [Nat.xor_right_inj] at this

theorem crcFold_lt {s : Nat} {l : List Nat} (hs : s < 2 ^ 32)
    (hl : ∀ b ∈ l, b < 256) : l.foldl crcByteStep s < 2 ^ 32 := by
  induction l generalizing s with
  | nil => exact hs
  | cons b l ih =>
      exact ih (crcByteStep_lt hs (hl b (List.mem_cons_self b l)))
        (fun x hx => hl x (List.mem_cons_of_mem b hx))

theorem crcFold_ne {s t : Nat} {l : List Nat} (hs : s < 2 ^ 32) (ht : t < 2 ^ 32)
    (hl : ∀ b ∈ l, b < 256) (hne : s ≠ t) :
    l.foldl crcByteStep s ≠ l.foldl crcByteStep t := by
  induction l generalizing s t with
  | nil => exact hne
  | cons b l ih =>
      have hb : b < 256 := hl b (List.mem_cons_self b l)
      exact ih (crcByteStep_lt hs hb) (crcByteStep_lt ht hb)
        (fun x hx => hl x (List.mem_cons_of_mem b hx))
        (fun he => hne (crcByteStep_inj_state hs ht hb he))

/-- CRC-32 detects any single-byte substitution: two byte sequences that
agree everywhere except in one position have different checksums. -/
theorem crc32_single_flip {pre suf : List Nat} {x y : Nat}
    (hpre : ∀ b ∈ pre, b < 256) (hsuf : ∀ b ∈ suf, b < 256)
    (hx : x < 256) (hy : y < 256) (hne : x ≠ y) :
    crc32 (pre ++ x :: suf) ≠ crc32 (pre ++ y :: suf) := by
  unfold crc32
  intro h
  rw [Nat.xor_left_inj] at h
  rw [List.foldl_append, List.foldl_append] at h
  have hs : pre.foldl crcByteStep 0xFFFFFFFF < 2 ^ 32 :=
    crcFold_lt (by decide) hpre
  simp only [List.foldl_cons] at h
  have hstep : crcByteStep (pre.foldl crcByteStep 0xFFFFFFFF) x ≠
      crcByteStep (pre.foldl crcByteStep 0xFFFFFFFF) y :=
    fun he => hne (crcByteStep_inj_byte hs hx hy he)
  exact crcFold_ne (crcByteStep_lt hs hx) (crcByteStep_lt hs hy) hsuf hstep h

/-! ## On-disk format and loader (`src/storage/format.rs`, `src/storage/mmap.rs`)

A file of length `≥ 256` is modelled as its parsed 256-byte header
(`Header`, the struct of `src/storage/format.rs`; every field is a
plain little-endian integer, so parsing is a bijection and we work with
the record directly) together with the raw payload bytes that follow
the header.  `MmapIndex::load` consults only the header fields modelled
here and the payload bytes. -/

/-- The error enum `StorageError` of `src/storage/mmap.rs` lines 7-17.
Its only variants are `Io`, `InvalidMagic`, `FileTooSmall` and
`ChecksumMismatch`; the spec's `OffsetInconsistent` does not exist. -/
inductive StorageError where
  | Io : StorageError
  | InvalidMagic : StorageError
  | FileTooSmall : StorageError
  | ChecksumMismatch : StorageError
deriving DecidableEq, Repr

/-- The `Header` struct of `src/storage/format.rs` (256 bytes,
`repr(C)`): note it has a single `vectors_offset` field and no
`quantized_vectors_offset`. -/
structure Header where
  magic : List Nat
  version : Nat
  dimension : Nat
  num_elements : Nat
  entry_point_id : Nat
  max_layer : Nat
  m_max : Nat
  m_max_0 : Nat
  ef_construction : Nat
  nodes_offset : Nat
  vectors_offset : Nat
  connections_offset : Nat
  checksum : Nat
deriving DecidableEq, Repr

/-- The magic bytes `b"HNSWANN1"`. -/
def magicBytes : List Nat := [0x48, 0x4E, 0x53, 0x57, 0x41, 0x4E, 0x4E, 0x31]

/-- A candidate index file: parsed header plus the payload bytes at
offsets `≥ 256`. -/
structure IndexFile where
  header : Header
  payload : List Nat
deriving DecidableEq, Repr

/-- Total file length in bytes. -/
def IndexFile.len (f : IndexFile) : Nat := 256 + f.payload.length

/-- Result of `MmapIndex::load`. -/
inductive LoadResult where
  | ok : IndexFile → LoadResult
  | error : StorageError → LoadResult
deriving DecidableEq, Repr

/-- `MmapIndex::load` (`src/storage/mmap.rs` lines 24-62) on a file of
length `≥ 256`: check the magic; return `FileTooSmall` if any of the
three declared offsets is `≥` the file length (no overlap or ordering
check is performed); recompute CRC32 over the bytes after the header
(skipped when there are none) and compare with `header.checksum`.
The `warmup` step performs only `madvise` hints and page touches and is
not modelled. -/
def loadFile (f : IndexFile) : LoadResult :=
  if f.header.magic ≠ magicBytes then .error .InvalidMagic
  else if f.header.nodes_offset ≥ f.len ∨ f.header.vectors_offset ≥ f.len ∨
      f.header.connections_offset ≥ f.len then .error .FileTooSmall
  else if 0 < f.payload.length ∧ crc32 f.payload ≠ f.header.checksum then
    .error .ChecksumMismatch
  else .ok f

/-- A concrete file whose declared regions are mis-ordered (connection
arena before the full-vector region, which is before the node table)
and mutually overlapping, with valid magic and checksum. -/
def c4File : IndexFile :=
  { header :=
    { magic := magicBytes
      version := 1
      dimension := 1
      num_elements := 1
      entry_point_id := 0
      max_layer := 0
      m_max := 5
      m_max_0 := 10
      ef_construction := 10
      nodes_offset := 258
      vectors_offset := 257
      connections_offset := 256
      checksum := crc32 [1, 2, 3, 4] }
    payload := [1, 2, 3, 4] }

/-- Claim C4, counterexample: a file whose declared regions are
mis-ordered and overlapping loads successfully — `load` returns no
error at all (and the error kind `OffsetInconsistent` does not even
exist in `StorageError`), refuting the claim that such files yield
`OffsetInconsistent`. -/
theorem c4_misordered_regions_load_ok :
    loadFile c4File = .ok c4File ∧
      c4File.header.connections_offset < c4File.header.vectors_offset ∧
      c4File.header.vectors_offset < c4File.header.nodes_offset ∧
      c4File.header.nodes_offset + 8 * c4File.header.num_elements > c4File.header.connections_offset := by
  refine ⟨?_, by decide, by decide, by decide⟩
  unfold loadFile c4File IndexFile.len
  simp [magicBytes]

/-- Claim C4 as amended: `load` validates only that each declared
offset lies strictly inside the file, answering `FileTooSmall` when one
does not; it performs no non-overlap or ordering validation, has no
`OffsetInconsistent` error kind, and accepts any file with valid magic,
in-range offsets and matching checksum regardless of how the declared
regions are ordered or how they overlap. -/
theorem c4_load_skips_region_validation (f : IndexFile)
    (hmagic : f.header.magic = magicBytes)
    (hn : f.header.nodes_offset < f.len)
    (hv : f.header.vectors_offset < f.len)
    (hc : f.header.connections_offset < f.len)
    (hcrc : 0 < f.payload.length → crc32 f.payload = f.header.checksum) :
    loadFile f = .ok f := by
  unfold loadFile
  rw [if_neg (by simp [hmagic]), if_neg (by omega), if_neg ?_]
  intro hcontra
  exact hcontra.2 (hcrc hcontra.1)

/-- Witness for the amended claim C4 at a concrete file. -/
theorem c4_load_skips_region_validation_witness :
    loadFile { header :=
      { magic := magicBytes, version := 1, dimension := 1, num_elements := 1,
        entry_point_id := 0, max_layer := 0, m_max := 5, m_max_0 := 10,
        ef_construction := 10, nodes_offset := 256, vectors_offset := 256,
        connections_offset := 256, checksum := crc32 [7] }, payload := [7] } =
      .ok { header :=
      { magic := magicBytes, version := 1, dimension := 1, num_elements := 1,
        entry_point_id := 0, max_layer := 0, m_max := 5, m_max_0 := 10,
        ef_construction := 10, nodes_offset := 256, vectors_offset := 256,
        connections_offset := 256, checksum := crc32 [7] }, payload := [7] } :=
  c4_load_skips_region_validation _ rfl (by decide) (by decide) (by decide)
    (fun _ => rfl)

/-- Claim C7: for every file that loads successfully, substituting any
single payload byte (any byte at file offset `≥ 256`) by a different
byte value makes `load` fail with `ChecksumMismatch`: the magic and
offset checks consult only the unchanged header, and CRC-32 detects
every single-byte substitution. -/
theorem c7_crc_detects_byte_flip (f : IndexFile) (i b : Nat)
    (hload : loadFile f = .ok f)
    (hbytes : ∀ x ∈ f.payload, x < 256)
    (hi : i < f.payload.length) (hb : b < 256)
    (hne : b ≠ f.payload.getD i 0) :
    loadFile { f with payload := f.payload.set i b } = .error .ChecksumMismatch := by
  have hgetD : f.payload.getD i 0 = f.payload[i] := by
    simp [List.getD_eq_getElem?_getD, List.getElem?_eq_getElem hi]
  unfold loadFile at hload
  split_ifs at hload with h1 h2 h3
  have hcrc : crc32 f.payload = f.header.checksum := by
    by_contra hcc
    exact h3 ⟨by omega, hcc⟩
  have horig : f.payload = f.payload.take i ++ f.payload[i] :: f.payload.drop (i + 1) := by
    conv_lhs => rw [← List.take_append_drop i f.payload]
    rw [List.drop_eq_getElem_cons hi]
  have hset : f.payload.set i b = f.payload.take i ++ b :: f.payload.drop (i + 1) :=
    List.set_eq_take_cons_drop b hi
  have hpre : ∀ x ∈ f.payload.take i, x < 256 :=
    fun x hx => hbytes x (List.take_subset i f.payload hx)
  have hsuf : ∀ x ∈ f.payload.drop (i + 1), x < 256 :=
    fun x hx => hbytes x (List.drop_subset (i + 1) f.payload hx)
  have hxi : f.payload[i] < 256 := hbytes _ (List.getElem_mem hi)
  have hcrcne : crc32 (f.payload.set i b) ≠ f.header.checksum := by
    rw [hset, ← hcrc]
    conv_rhs => rw [horig]
    exact crc32_single_flip hpre hsuf hb hxi (by rw [hgetD] at hne; omega)
  have hcond2 : ¬({ f with payload := f.payload.set i b }.header.nodes_offset ≥
      { f with payload := f.payload.set i b }.len ∨
      { f with payload := f.payload.set i b }.header.vectors_offset ≥
      { f with payload := f.payload.set i b }.len ∨
      { f with payload := f.payload.set i b }.header.connections_offset ≥
      { f with payload := f.payload.set i b }.len) := by
    simp only [IndexFile.len, List.length_set]
    simpa [IndexFile.len] using h2
  have hcond3 : 0 < (f.payload.set i b).length ∧
      crc32 (f.payload.set i b) ≠ f.header.checksum :=
    ⟨by simp only [List.length_set]; omega, hcrcne⟩
  unfold loadFile
  rw [if_neg (by simpa using h1), if_neg hcond2, if_pos (by simpa using hcond3)]

/-- The header of the concrete valid file used to witness claim C7. -/
def c7Header : Header :=
  { magic := magicBytes, version := 1, dimension := 1, num_elements := 1,
    entry_point_id := 0, max_layer := 0, m_max := 5, m_max_0 := 10,
    ef_construction := 10, nodes_offset := 256, vectors_offset := 257,
    connections_offset := 258, checksum := crc32 [1, 2, 3] }

/-- Witness for claim C7: flipping payload byte 1 of a concrete valid
three-payload-byte file from `2` to `9` makes `load` report
`ChecksumMismatch`. -/
theorem c7_crc_detects_byte_flip_witness :
    loadFile { header := c7Header, payload := List.set [1, 2, 3] 1 9 } =
      .error .ChecksumMismatch :=
  c7_crc_detects_byte_flip { header := c7Header, payload := [1, 2, 3] } 1 9
    (by unfold loadFile c7Header IndexFile.len
        simp [magicBytes])
    (by decide) (by decide) (by decide) (by decide)

/-! ## HNSW builder (`src/core/hnsw.rs`)

Distances are the squared Euclidean distance over `ℚ` (see the header
comment); every comparison the algorithm performs is preserved.  The
`BinaryHeap`s and the repeatedly-sorted vector `w` are modelled as
distance-ascending lists with a deterministic tie order (ties between
equal distances do not affect any claim proved here). -/

/-- The struct `Node` of `src/core/hnsw.rs`. -/
structure Node where
  id : Nat
  vector : List ℚ
  layer_max : Nat
  connections : List (List Nat)
deriving DecidableEq, Repr

/-- The struct `HNSW` of `src/core/hnsw.rs`. -/
structure HNSW where
  layers : Nat
  ef_construction : Nat
  m : Nat
  m0 : Nat
  nodes : List Node
  entry_point : Option Nat
deriving DecidableEq, Repr

/-- `euclidean_distance` (`src/simd/distance.rs`): `assert_eq!` on the
lengths (a panic, modelled as `crash`), then the sum of squared
differences (the final `sqrt` is modelled away, see the header
comment; the AVX2 variant computes the same sums). -/
def sqDist (a b : List ℚ) : Res ℚ :=
  if a.length = b.length then
    Res.ok (((a.zip b).map fun p => (p.1 - p.2) * (p.1 - p.2)).sum)
  else Res.crash

/-- Insert a `(distance, id)` candidate into a distance-ascending list
after every entry of distance `≤` its own: the position that pushing
onto `w` and stably re-sorting produces in `search_layer`, and the
deterministic model of heap insertion used throughout. -/
def insertTail (c : ℚ × Nat) : List (ℚ × Nat) → List (ℚ × Nat)
  | [] => [c]
  | x :: xs => if x.1 ≤ c.1 then x :: insertTail c xs else c :: x :: xs

/-- Stable ascending sort by distance (Rust `sort_by` with
`partial_cmp` on the distance is a stable sort; over `ℚ` the comparator
is total). -/
def sortByDist (l : List (ℚ × Nat)) : List (ℚ × Nat) :=
  l.foldl (fun acc c => insertTail c acc) []

namespace HNSW

/-- `HNSW::new`. -/
def new (layers ef_construction m m0 : Nat) : HNSW :=
  { layers := layers, ef_construction := ef_construction, m := m, m0 := m0,
    nodes := [], entry_point := none }

/-- `self.nodes[i]` with the out-of-bounds panic. -/
def getNode (g : HNSW) (i : Nat) : Res Node := getPanic g.nodes i

/-- `self.nodes[i].connections[level]` with the out-of-bounds panics. -/
def getConns (g : HNSW) (i level : Nat) : Res (List Nat) := do
  let n ← getNode g i
  getPanic n.connections level

/-- Overwrite `self.nodes[i].connections[level]` (used for the
push-then-prune updates); crashes when either index is out of bounds. -/
def setConns (g : HNSW) (i level : Nat) (conns : List Nat) : Res HNSW := do
  let n ← getNode g i
  if level < n.connections.length then
    Res.ok ({ g with nodes := g.nodes.set i { n with connections := n.connections.set level conns } })
  else Res.crash

/-- The inner neighbor loop of `HNSW::search_layer` (lines 185-200):
mark each unvisited neighbor visited, compute its distance, and admit
it to the candidate heap and to `w` if `w` is not full or it beats the
current worst; after an admission `w` is re-sorted and trimmed to `ef`
entries by popping the worst. -/
def slNeighbors (g : HNSW) (q : List ℚ) (ef : Nat) :
    List Nat → List Nat → List (ℚ × Nat) → List (ℚ × Nat) →
    Res (List Nat × List (ℚ × Nat) × List (ℚ × Nat))
  | [], visited, cands, w => Res.ok (visited, cands, w)
  | nid :: rest, visited, cands, w =>
    if nid ∈ visited then slNeighbors g q ef rest visited cands w
    else do
      let node ← getNode g nid
      let d ← sqDist q node.vector
      let doAdd ← (if w.length < ef then Res.ok true
        else match w.getLast? with
          | none => Res.crash
          | some worst => Res.ok (decide (d < worst.1)))
      if doAdd then
        slNeighbors g q ef rest (nid :: visited) (insertTail (d, nid) cands)
          (let w1 := insertTail (d, nid) w
           if ef < w1.length then w1.dropLast else w1)
      else slNeighbors g q ef rest (nid :: visited) cands w

/-- The main loop of `HNSW::search_layer` (lines 176-201): pop the
closest candidate; `w.last().unwrap()` (crash when `w` is empty);
terminate when the popped distance exceeds the worst of a full `w`;
otherwise expand the popped node's neighbors at `level`. -/
def slLoop (g : HNSW) (q : List ℚ) (ef level : Nat) :
    Nat → List Nat → List (ℚ × Nat) → List (ℚ × Nat) → Res (List (Nat × ℚ))
  | 0, _, _, _ => Res.fuelOut
  | fuel + 1, visited, cands, w =>
    match cands with
    | [] => Res.ok (w.map fun c => (c.2, c.1))
    | c :: rest =>
      match w.getLast? with
      | none => Res.crash
      | some worst =>
        if worst.1 < c.1 ∧ ef ≤ w.length then Res.ok (w.map fun c => (c.2, c.1))
        else do
          let conns ← getConns g c.2 level
          let st ← slNeighbors g q ef conns visited rest w
          slLoop g q ef level fuel st.1 st.2.1 st.2.2

/-- `HNSW::search_layer` (lines 154-204): seed the visited set, the
candidate heap and `w` with the entry point, then run the loop; the
returned list is `w`, ascending by distance, as `(id, distance)`
pairs. -/
def search_layer (g : HNSW) (q : List ℚ) (entry ef level fuel : Nat) :
    Res (List (Nat × ℚ)) := do
  let en ← getNode g entry
  let d ← sqDist q en.vector
  slLoop g q ef level fuel [entry] [(d, entry)] [(d, entry)]

/-- `HNSW::prune_connections` (lines 206-229): nothing to do while the
list is within `max_links`; otherwise compute the distance from the
node's vector to every listed neighbor id — indexing `self.nodes[n_id]`,
which panics when a listed id is out of bounds — sort ascending and
keep the closest `max_links`. -/
def prune_connections (g : HNSW) (node_id level max_links : Nat) : Res HNSW := do
  let node ← getNode g node_id
  let conns ← getPanic node.connections level
  if conns.length ≤ max_links then Res.ok g
  else do
    let cands ← conns.mapM (fun nid => do
      let nn ← getNode g nid
      let d ← sqDist node.vector nn.vector
      Res.ok (d, nid))
    setConns g node_id level (((sortByDist cands).take max_links).map (·.2))

/-- The zoom-down loop of `HNSW::insert` step 1 and of `HNSW::search`:
greedy 1-best `search_layer` per level of the descending `levels`
list, indexing `[0]` into its result. -/
def zoomLoop (g : HNSW) (q : List ℚ) (fuel : Nat) :
    List Nat → Nat → Res Nat
  | [], curr => Res.ok curr
  | level :: rest, curr => do
    let r ← search_layer g q curr 1 level fuel
    match r.head? with
    | none => Res.crash
    | some c => zoomLoop g q fuel rest c.1

/-- The bidirectional-connection loop of `HNSW::insert` step 3c: push
the new `id` onto each selected neighbor's list at `level`, then prune
that neighbor with `max_links`. -/
def connectNeighbors (id level max_links : Nat) :
    List Nat → HNSW → Res HNSW
  | [], g => Res.ok g
  | nid :: rest, g => do
    let conns ← getConns g nid level
    let g1 ← setConns g nid level (conns ++ [id])
    let g2 ← prune_connections g1 nid level max_links
    connectNeighbors id level max_links rest g2

/-- The per-level insertion loop of `HNSW::insert` step 3 (lines
99-118): beam-search with `ef_construction`, keep the top
`M₀`/`M` as the new node's neighbors at this level, connect them
bidirectionally (with pruning), and descend via `candidates[0]`. -/
def descendLoop (q : List ℚ) (id fuel : Nat) :
    List Nat → HNSW → Node → Nat → Res (HNSW × Node × Nat)
  | [], g, node, curr => Res.ok (g, node, curr)
  | level :: rest, g, node, curr => do
    let cands ← search_layer g q curr g.ef_construction level fuel
    let m_level := if level = 0 then g.m0 else g.m
    let neighbors := (cands.take m_level).map (·.1)
    let node1 ← (if level < node.connections.length then
        Res.ok { node with connections := node.connections.set level neighbors }
      else Res.crash)
    let g1 ← connectNeighbors id level m_level neighbors g
    match cands.head? with
    | none => Res.crash
    | some c => descendLoop q id fuel rest g1 node1 c.1

/-- `HNSW::insert` (lines 56-130).  `random_level` draws from a
thread-local RNG; the draw is the explicit `layer_max` argument here,
so a build is replayed for one fixed (arbitrary) RNG outcome. -/
def insertW (g : HNSW) (vector : List ℚ) (layer_max : Nat) : Res (HNSW × Nat) :=
  let id := g.nodes.length
  let node : Node := { id := id, vector := vector, layer_max := layer_max,
                       connections := List.replicate (layer_max + 1) [] }
  match g.entry_point with
  | none => Res.ok ({ g with nodes := g.nodes ++ [node], entry_point := some id }, id)
  | some entry_point => do
    let fuel := g.nodes.length + 4
    let en ← getNode g entry_point
    let _ ← sqDist vector en.vector
    let max_layer_global := en.layer_max
    let zoomLevels := if layer_max < max_layer_global then
        (List.range (max_layer_global - layer_max)).map (fun j => max_layer_global - j)
      else []
    let curr ← zoomLoop g vector fuel zoomLevels entry_point
    let start_layer := min layer_max max_layer_global
    let descLevels := (List.range (start_layer + 1)).map (fun j => start_layer - j)
    let r ← descendLoop vector id fuel descLevels g node curr
    let g1 := r.1
    let node1 := r.2.1
    let g2 := if max_layer_global < layer_max then { g1 with entry_point := some id }
      else g1
    Res.ok ({ g2 with nodes := g2.nodes ++ [node1] }, id)

/-- `HNSW::search` (lines 132-152): zoom from the entry point down to
layer 1, then beam-search layer 0 with width `max(k, ef_construction)`
and truncate to `k`; the empty graph yields the empty result. -/
def search (g : HNSW) (q : List ℚ) (k : Nat) : Res (List (Nat × ℚ)) :=
  match g.entry_point with
  | none => Res.ok []
  | some entry_point => do
    let fuel := g.nodes.length + 4
    let en ← getNode g entry_point
    let max_layer := en.layer_max
    let zoomLevels := (List.range max_layer).map (fun j => max_layer - j)
    let curr ← zoomLoop g q fuel zoomLevels entry_point
    let cands ← search_layer g q curr (max k g.ef_construction) 0 fuel
    Res.ok (cands.take k)

end HNSW

/-- One build run: the builder from `HNSW::new` followed by one
`insert` per element of `ops`; each op carries the inserted vector and
the level that `random_level` drew for it. -/
def insertSeqAux : List (List ℚ × Nat) → HNSW → Res HNSW
  | [], g => Res.ok g
  | op :: rest, g => do
    let r ← HNSW.insertW g op.1 op.2
    insertSeqAux rest r.1

/-- Build a graph from scratch with `HNSW::new(layers, ef, m, m0)` and
the given insert sequence. -/
def insertSeq (layers ef m m0 : Nat) (ops : List (List ℚ × Nat)) : Res HNSW :=
  insertSeqAux ops (HNSW.new layers ef m m0)

/-- Step 4 of `HNSW::save` ("Write Vectors (Obfuscated)", `src/core/hnsw.rs`
lines 310-320): the single vector arena written holds, for each node in
insertion order, the node's raw stored vector with each component's f32
bit pattern xored with the low 32 bits of the random `obfuscation_key`.
Modelled at value level for the RNG draw `obfuscation_key = 0` (one
possible draw), for which the scrambling is the identity and the arena
is exactly the list of raw builder vectors; bit-level f32 scrambling
for other keys is not representable in this embedding.  `save` writes
no second (quantized `u8`) arena at all, and `insert` never normalizes
`vector` before storing it in the node. -/
def savedVectorsKey0 (g : HNSW) : List (List ℚ) := g.nodes.map Node.vector

/-- Modelled from the spec (§4.1, §4.4): a stored vector is normalized
if it is the zero vector (stored unchanged) or has unit L2 norm,
i.e. `Σ xᵢ² = 1`. -/
def IsNormalizedVec (v : List ℚ) : Prop :=
  (∀ x ∈ v, x = 0) ∨ ((v.map fun x => x * x).sum = 1)

instance (v : List ℚ) : Decidable (IsNormalizedVec v) := by
  unfold IsNormalizedVec
  infer_instance

/-- Claim C2: the spec says construction cannot fail, but `insert`
panics: with `HNSW::new(1, 10, 1, 1)`, inserting the 1-dimensional
vectors `[0]`, `[1]`, `[2]` (all levels drawn 0) panics during the
third insert — `insert` pushes the new id `2` into neighbor 1's layer-0
list before pushing the new node into `self.nodes`, and the overflow
prune then indexes `self.nodes[2]`, which does not exist yet. -/
theorem c2_insert_panics_in_prune :
    insertSeq 1 10 1 1 [([0], 0), ([1], 0), ([2], 0)] = Res.crash := by
  with_unfolding_all rfl

/-- Claim C3: the serializer does not store normalized vectors in two
coherent arenas.  On the graph of the repo's own test
`test_save_load_quantized` (vectors `[1,1,1]`, `[-1,-1,-1]`, `[0,0,0]`)
the only vector arena `save` writes contains the raw, unnormalized
vectors — `[1,1,1]` has squared norm 3, not 1 — and no quantized `u8`
arena is produced (the test expects `get_quantized_vector(2)[0] = 127`
and `get_full_vector(0)[0] ≈ 0.577`). -/
theorem c3_save_writes_raw_unnormalized_arena :
    ∃ g, insertSeq 4 10 5 10 [([1, 1, 1], 0), ([-1, -1, -1], 0), ([0, 0, 0], 0)] =
        Res.ok g ∧
      savedVectorsKey0 g = [[1, 1, 1], [-1, -1, -1], [0, 0, 0]] ∧
      ¬ IsNormalizedVec [(1 : ℚ), 1, 1] := by
  refine ⟨{ layers := 4, ef_construction := 10, m := 5, m0 := 10,
            nodes := [{ id := 0, vector := [1, 1, 1], layer_max := 0, connections := [[1, 2]] },
                      { id := 1, vector := [-1, -1, -1], layer_max := 0, connections := [[0, 2]] },
                      { id := 2, vector := [0, 0, 0], layer_max := 0, connections := [[0, 1]] }],
            entry_point := some 0 }, by with_unfolding_all rfl, by with_unfolding_all rfl,
    by norm_num [IsNormalizedVec]⟩

/-- Claim C1: the save/load round trip cannot reproduce in-memory
search results.  For the single-insert graph of `[3,4]`, the in-memory
search works (`search([3,4], 1)` returns id 0 at distance 0), but the
vector arena `save` writes contains the raw vector `[3,4]` (squared
norm 25), not the normalized vector the two-stage rerank reads as
`fvec(id)`; moreover no quantized arena exists for the coarse stage
(`get_quantized_vector` reads a `quantized_vectors_offset` header field
that `format.rs` does not define). -/
theorem c1_roundtrip_save_side_broken :
    ∃ g, insertSeq 4 10 5 10 [([3, 4], 0)] = Res.ok g ∧
      HNSW.search g [3, 4] 1 = Res.ok [(0, 0)] ∧
      savedVectorsKey0 g = [[3, 4]] ∧
      ¬ IsNormalizedVec [(3 : ℚ), 4] := by
  refine ⟨{ layers := 4, ef_construction := 10, m := 5, m0 := 10,
            nodes := [{ id := 0, vector := [3, 4], layer_max := 0, connections := [[]] }],
            entry_point := some 0 }, by with_unfolding_all rfl, by with_unfolding_all rfl,
    by with_unfolding_all rfl, by norm_num [IsNormalizedVec]⟩

/-- `HNSW::save` (lines 231-334) on the zero-insert builder.  With
`self.nodes` empty: `dim = 0` (line 239), the connection arena is
empty, `nodes_offset = 256`, `vectors_offset = 256 + 0·8 = 256`,
`connections_offset = 256 + 0 = 256`, `entry_point.unwrap_or(0) = 0`,
`max_layer = 0` (no node 0), and nothing is written after the header,
so the checksum is the CRC-32 of the empty byte sequence.  Only the
zero-insert case is modelled (`none` otherwise): a non-empty file body
consists of f32 bit patterns xored with the random obfuscation key,
which this embedding does not represent (claims C1/C3). -/
def saveEmptyHeader (g : HNSW) : Header :=
  { magic := magicBytes
    version := 1
    dimension := 0
    num_elements := 0
    entry_point_id := 0
    max_layer := 0
    m_max := g.m
    m_max_0 := g.m0
    ef_construction := g.ef_construction
    nodes_offset := 256
    vectors_offset := 256
    connections_offset := 256
    checksum := crc32 [] }

/-- The file `HNSW::save` produces for the zero-insert builder: the
256-byte header of `saveEmptyHeader` and an empty payload. -/
def saveEmptyBuilder (g : HNSW) : Option IndexFile :=
  if g.nodes = [] then some { header := saveEmptyHeader g, payload := [] }
  else none

/-- Claim C10: saving a zero-insert builder succeeds and produces a
file of exactly the 256-byte header whose three region offsets all
equal the file length, and loading that file fails with `FileTooSmall`
(the offset range check `offset >= total_size` fires), not a usable
empty index. -/
theorem c10_empty_save_yields_file_too_small (layers ef m m0 : Nat) :
    ∃ f, saveEmptyBuilder (HNSW.new layers ef m m0) = some f ∧
      f.len = 256 ∧
      f.header.nodes_offset = f.len ∧
      f.header.vectors_offset = f.len ∧
      f.header.connections_offset = f.len ∧
      loadFile f = .error .FileTooSmall := by
  refine ⟨_, rfl, rfl, rfl, rfl, rfl, ?_⟩
  unfold loadFile IndexFile.len saveEmptyHeader
  simp [magicBytes]

/-! ## Claim C6: degree caps -/

@[simp] theorem bind_eq_res_bind (x : Res α) (f : α → Res β) : x >>= f = Res.bind x f := rfl

@[simp] theorem pure_eq_ok (a : α) : (pure a : Res α) = Res.ok a := rfl

/-- Invert a successful monadic bind. -/
theorem ok_of_bind {x : Res α} {f : α → Res β} {b : β}
    (h : Res.bind x f = Res.ok b) : ∃ a, x = Res.ok a ∧ f a = Res.ok b := by
  cases x with
  | ok a => exact ⟨a, rfl, h⟩
  | crash => exact Res.noConfusion h
  | fuelOut => exact Res.noConfusion h

/-- The degree-cap predicate of claim C6: every per-layer adjacency
list of every node has length at most `M0` at layer 0 and at most `M`
at the layers above. -/
def CapsOk (m m0 : Nat) (g : HNSW) : Prop :=
  ∀ node ∈ g.nodes, ∀ l cl, node.connections.get? l = some cl →
    cl.length ≤ (if l = 0 then m0 else m)

/-- The cap predicate for the in-flight node `insert` is building. -/
def NodeCapsOk (m m0 : Nat) (node : Node) : Prop :=
  ∀ l cl, node.connections.get? l = some cl → cl.length ≤ (if l = 0 then m0 else m)

theorem listCaps_set {m m0 level : Nat} {conns : List (List Nat)} {cl2 : List Nat}
    (hc : ∀ l cl, conns.get? l = some cl → cl.length ≤ (if l = 0 then m0 else m))
    (hlen : cl2.length ≤ (if level = 0 then m0 else m)) :
    ∀ l cl, (conns.set level cl2).get? l = some cl →
      cl.length ≤ (if l = 0 then m0 else m) := by
  intro l cl hget
  by_cases hl : level = l
  · subst hl
    rcases Nat.lt_or_ge level conns.length with hlt | hge
    · rw [List.get?_set_eq_of_lt _ hlt] at hget
      cases hget
      exact hlen
    · rw [List.set_eq_of_length_le hge] at hget
      exact hc _ _ hget
  · rw [List.get?_set_ne _ _ hl] at hget
    exact hc _ _ hget

theorem capsOk_update {m m0 : Nat} {g : HNSW} {i level : Nat} {n : Node} {cl2 : List Nat}
    (hcaps : CapsOk m m0 g) (hn : g.nodes.get? i = some n)
    (hlen : cl2.length ≤ (if level = 0 then m0 else m)) :
    CapsOk m m0 ({ g with nodes := g.nodes.set i { n with connections := n.connections.set level cl2 } }) := by
  intro node' hmem l cl hget
  rcases List.mem_or_eq_of_mem_set hmem with hmem' | rfl
  · exact hcaps node' hmem' l cl hget
  · exact listCaps_set (fun l cl h => hcaps n (List.get?_mem hn) l cl h) hlen l cl hget

theorem setConns_ok {g : HNSW} {i level : Nat} {conns : List Nat} {g' : HNSW}
    (h : HNSW.setConns g i level conns = Res.ok g') :
    ∃ n, g.nodes.get? i = some n ∧ level < n.connections.length ∧
      g' = { g with nodes := g.nodes.set i { n with connections := n.connections.set level conns } } := by
  unfold HNSW.setConns HNSW.getNode at h
  simp only [getPanic_eq, bind_eq_res_bind] at h
  cases hn : g.nodes.get? i with
  | none => rw [hn] at h; exact Res.noConfusion h
  | some n =>
      rw [hn] at h
      simp only [Res.bind_ok] at h
      split at h
      · cases h
        exact ⟨n, rfl, by assumption, rfl⟩
      · exact Res.noConfusion h

theorem prune_ok_cases {g : HNSW} {i level maxl : Nat} {g' : HNSW}
    (h : HNSW.prune_connections g i level maxl = Res.ok g') :
    ∃ n cl, g.nodes.get? i = some n ∧ n.connections.get? level = some cl ∧
      ((g' = g ∧ cl.length ≤ maxl) ∨
       ∃ cl2, cl2.length ≤ maxl ∧
         g' = { g with nodes := g.nodes.set i { n with connections := n.connections.set level cl2 } }) := by
  unfold HNSW.prune_connections HNSW.getNode at h
  simp only [getPanic_eq, bind_eq_res_bind] at h
  cases hn : g.nodes.get? i with
  | none => rw [hn] at h; exact Res.noConfusion h
  | some n =>
      rw [hn] at h
      simp only [Res.bind_ok] at h
      cases hc : n.connections.get? level with
      | none => rw [hc] at h; exact Res.noConfusion h
      | some cl =>
          rw [hc] at h
          simp only [Res.bind_ok] at h
          split at h
          · cases h
            exact ⟨n, cl, rfl, hc, Or.inl ⟨rfl, by assumption⟩⟩
          · rcases ok_of_bind h with ⟨cands, _, hset⟩
            rcases setConns_ok hset with ⟨n2, hn2, _, hshape⟩
            rw [hn] at hn2
            cases hn2
            refine ⟨n, cl, rfl, hc, Or.inr ⟨_, ?_, hshape⟩⟩
            calc (((sortByDist cands).take maxl).map (·.2)).length
                = ((sortByDist cands).take maxl).length := List.length_map _ _
              _ ≤ maxl := by rw [List.length_take]; omega

theorem connectNeighbors_caps {m m0 id level maxl : Nat}
    (hml : maxl = if level = 0 then m0 else m) :
    ∀ (ns : List Nat) (g g' : HNSW), CapsOk m m0 g →
      HNSW.connectNeighbors id level maxl ns g = Res.ok g' →
      CapsOk m m0 g' ∧ g'.m = g.m ∧ g'.m0 = g.m0 ∧ g'.layers = g.layers ∧
        g'.ef_construction = g.ef_construction := by
  intro ns
  induction ns with
  | nil =>
      intro g g' hcaps h
      unfold HNSW.connectNeighbors at h
      cases h
      exact ⟨hcaps, rfl, rfl, rfl, rfl⟩
  | cons nid rest ih =>
      intro g g' hcaps h
      unfold HNSW.connectNeighbors at h
      simp only [bind_eq_res_bind] at h
      rcases ok_of_bind h with ⟨conns, hconns, h⟩
      rcases ok_of_bind h with ⟨g1, hset, h⟩
      rcases ok_of_bind h with ⟨g2, hprune, hrec⟩
      rcases setConns_ok hset with ⟨n, hn, hlvl, hg1⟩
      have hnidlt : nid < g.nodes.length := by
        by_contra hge
        rw [List.get?_eq_none.mpr (by omega)] at hn
        exact Option.noConfusion hn
      have hg1get : g1.nodes.get? nid =
          some { n with connections := n.connections.set level (conns ++ [id]) } := by
        rw [hg1]
        exact List.get?_set_eq_of_lt _ (by simpa using hnidlt)
      rcases prune_ok_cases hprune with ⟨n1, cl1, hn1, hcl1, hcases⟩
      rw [hg1get] at hn1
      cases hn1
      rw [List.get?_set_eq_of_lt _ hlvl] at hcl1
      cases hcl1
      rcases hcases with ⟨hg2eq, hlen⟩ | ⟨cl2, hlen2, hg2sh⟩
      · have hcaps1 : CapsOk m m0 g1 := by
          rw [hg1]
          exact capsOk_update hcaps hn (hml ▸ hlen)
        rcases ih g2 g' (hg2eq ▸ hcaps1) hrec with ⟨hc, h1, h2, h3, h4⟩
        rw [hg2eq, hg1] at h1 h2 h3 h4
        exact ⟨hc, by simpa using h1, by simpa using h2, by simpa using h3, by simpa using h4⟩
      · have hg2sh2 : g2 = { g with nodes := g.nodes.set nid { n with connections := n.connections.set level cl2 } } := by
          rw [hg2sh, hg1]
          simp only [List.set_set]
        have hcaps2 : CapsOk m m0 g2 := by
          rw [hg2sh2]
          exact capsOk_update hcaps hn (hml ▸ hlen2)
        rcases ih g2 g' hcaps2 hrec with ⟨hc, h1, h2, h3, h4⟩
        rw [hg2sh2] at h1 h2 h3 h4
        exact ⟨hc, by simpa using h1, by simpa using h2, by simpa using h3, by simpa using h4⟩

theorem nodeCaps_set {m m0 level : Nat} {node : Node} {cl2 : List Nat}
    (hc : NodeCapsOk m m0 node) (hlen : cl2.length ≤ (if level = 0 then m0 else m)) :
    NodeCapsOk m m0 ({ node with connections := node.connections.set level cl2 }) :=
  fun l cl hget => listCaps_set hc hlen l cl hget

theorem descendLoop_caps {m m0 : Nat} {q : List ℚ} {id fuel : Nat} :
    ∀ (levels : List Nat) (g : HNSW) (node : Node) (curr : Nat)
      (g' : HNSW) (node' : Node) (curr' : Nat),
      g.m = m → g.m0 = m0 → CapsOk m m0 g → NodeCapsOk m m0 node →
      HNSW.descendLoop q id fuel levels g node curr = Res.ok (g', node', curr') →
      g'.m = m ∧ g'.m0 = m0 ∧ CapsOk m m0 g' ∧ NodeCapsOk m m0 node' := by
  intro levels
  induction levels with
  | nil =>
      intro g node curr g' node' curr' hm hm0 hcaps hnode h
      unfold HNSW.descendLoop at h
      cases h
      exact ⟨hm, hm0, hcaps, hnode⟩
  | cons level rest ih =>
      intro g node curr g' node' curr' hm hm0 hcaps hnode h
      unfold HNSW.descendLoop at h
      simp only [bind_eq_res_bind] at h
      rcases ok_of_bind h with ⟨cands, hcands, h⟩
      rcases ok_of_bind h with ⟨node1, hnode1, h⟩
      rcases ok_of_bind h with ⟨g1, hconn, h⟩
      have hnode1caps : NodeCapsOk m m0 node1 := by
        split at hnode1
        · cases hnode1
          refine nodeCaps_set hnode ?_
          calc ((cands.take (if level = 0 then g.m0 else g.m)).map (·.1)).length
              = (cands.take (if level = 0 then g.m0 else g.m)).length :=
                List.length_map _ _
            _ ≤ (if level = 0 then g.m0 else g.m) := by
                rw [List.length_take]; omega
            _ = (if level = 0 then m0 else m) := by rw [hm, hm0]
        · exact Res.noConfusion hnode1
      obtain ⟨hcaps1, hm1, hm01, _, _⟩ :=
        connectNeighbors_caps (by rw [hm, hm0]) _ g g1 hcaps hconn
      cases hh : cands.head? with
      | none => rw [hh] at h; exact Res.noConfusion h
      | some c =>
          rw [hh] at h
          exact ih g1 node1 c.1 g' node' curr' (hm1.trans hm) (hm01.trans hm0)
            hcaps1 hnode1caps h

theorem insertW_caps {m m0 : Nat} {g : HNSW} {v : List ℚ} {lvl : Nat} {g' : HNSW} {nid : Nat}
    (hm : g.m = m) (hm0 : g.m0 = m0) (hcaps : CapsOk m m0 g)
    (h : HNSW.insertW g v lvl = Res.ok (g', nid)) :
    g'.m = m ∧ g'.m0 = m0 ∧ CapsOk m m0 g' := by
  have hnodecaps : NodeCapsOk m m0 { id := g.nodes.length, vector := v, layer_max := lvl, connections := List.replicate (lvl + 1) [] } := by
    intro l cl hget
    have hmem := List.get?_mem hget
    rw [List.eq_of_mem_replicate hmem]
    simp
  unfold HNSW.insertW at h
  cases hep : g.entry_point with
  | none =>
      rw [hep] at h
      cases h
      refine ⟨hm, hm0, ?_⟩
      intro node hmem l cl hget
      rcases List.mem_append.mp hmem with hmem' | hmem'
      · exact hcaps node hmem' l cl hget
      · rw [List.mem_singleton.mp hmem'] at hget
        exact hnodecaps l cl hget
  | some ep =>
      rw [hep] at h
      simp only [bind_eq_res_bind] at h
      rcases ok_of_bind h with ⟨en, hen, h⟩
      rcases ok_of_bind h with ⟨d0, hd0, h⟩
      rcases ok_of_bind h with ⟨curr, hcurr, h⟩
      rcases ok_of_bind h with ⟨r, hdesc, h⟩
      obtain ⟨g1, node1, curr1⟩ := r
      cases h
      obtain ⟨hm1, hm01, hcaps1, hnode1⟩ :=
        descendLoop_caps _ g _ curr g1 node1 curr1 hm hm0 hcaps hnodecaps hdesc
      by_cases hup : en.layer_max < lvl
      · rw [if_pos hup]
        refine ⟨hm1, hm01, ?_⟩
        intro node hmem l cl hget
        rcases List.mem_append.mp hmem with hmem' | hmem'
        · exact hcaps1 node hmem' l cl hget
        · rw [List.mem_singleton.mp hmem'] at hget
          exact hnode1 l cl hget
      · rw [if_neg hup]
        refine ⟨hm1, hm01, ?_⟩
        intro node hmem l cl hget
        rcases List.mem_append.mp hmem with hmem' | hmem'
        · exact hcaps1 node hmem' l cl hget
        · rw [List.mem_singleton.mp hmem'] at hget
          exact hnode1 l cl hget

theorem insertSeqAux_caps {m m0 : Nat} : ∀ (ops : List (List ℚ × Nat)) (g g' : HNSW),
    g.m = m → g.m0 = m0 → CapsOk m m0 g →
    insertSeqAux ops g = Res.ok g' →
    g'.m = m ∧ g'.m0 = m0 ∧ CapsOk m m0 g' := by
  intro ops
  induction ops with
  | nil =>
      intro g g' hm hm0 hcaps h
      unfold insertSeqAux at h
      cases h
      exact ⟨hm, hm0, hcaps⟩
  | cons op rest ih =>
      intro g g' hm hm0 hcaps h
      unfold insertSeqAux at h
      simp only [bind_eq_res_bind] at h
      rcases ok_of_bind h with ⟨r, hins, hrec⟩
      obtain ⟨g1, nid⟩ := r
      obtain ⟨h1, h2, h3⟩ := insertW_caps hm hm0 hcaps hins
      exact ih g1 g' h1 h2 h3 hrec

/-- Claim C6: degree caps.  After any sequence of inserts that
completes (for any drawn levels), every node `n` and every layer `l`
satisfies `|conn_n[l]| ≤ M0` if `l = 0` and `|conn_n[l]| ≤ M`
otherwise: the new node receives at most `M_l` neighbors (`take`), and
every neighbor that exceeds its cap after the reciprocal push is pruned
back to `max_links = M_l` before `insert` returns. -/
theorem c6_degree_caps (layers ef m m0 : Nat) (ops : List (List ℚ × Nat)) (g : HNSW)
    (h : insertSeq layers ef m m0 ops = Res.ok g) :
    ∀ node ∈ g.nodes, ∀ l cl, node.connections.get? l = some cl →
      cl.length ≤ (if l = 0 then m0 else m) := by
  have hstart : CapsOk m m0 (HNSW.new layers ef m m0) := by
    intro node hmem
    simp [HNSW.new] at hmem
  exact (insertSeqAux_caps ops (HNSW.new layers ef m m0) g rfl rfl hstart h).2.2

/-- Witness for claim C6 at a concrete completed three-insert build
(`HNSW::new(1, 10, 5, 10)` with vectors `[0]`, `[1]`, `[2]`),
instantiated at node 0 and layer 0 of the resulting graph. -/
theorem c6_degree_caps_witness :
    ([1, 2] : List Nat).length ≤ (if 0 = 0 then 10 else 5) :=
  c6_degree_caps 1 10 5 10 [([0], 0), ([1], 0), ([2], 0)]
    { layers := 1, ef_construction := 10, m := 5, m0 := 10,
      nodes := [{ id := 0, vector := [0], layer_max := 0, connections := [[1, 2]] },
                { id := 1, vector := [1], layer_max := 0, connections := [[0, 2]] },
                { id := 2, vector := [2], layer_max := 0, connections := [[1, 0]] }],
      entry_point := some 0 }
    (by with_unfolding_all rfl)
    { id := 0, vector := [0], layer_max := 0, connections := [[1, 2]] }
    (List.mem_cons_self _ _) 0 [1, 2] rfl

/-! ## Two-stage searcher over a loaded index (`src/storage/mmap.rs`)

The loaded index is modelled as a typed view of the mmap: the header
fields the searcher consults, the node table, the `u32` words of the
connection arena, the `u8` bytes of the quantized arena and the f32
arena decoded to rationals.  `format.rs`'s `Header` lacks the
`quantized_vectors_offset` field that `get_quantized_vector`
dereferences (the crate does not compile as-is, claims C1/C3); the
quantized region is modelled here per the spec's normative header
layout (§6).  Region lengths are the distance to the end of the
mapping, and an access past them is the slice-indexing panic. -/

/-- The record `OnDiskNode` of `src/storage/format.rs` (padding
omitted). -/
structure OnDiskNode where
  layer_count : Nat
  connections_offset : Nat
deriving DecidableEq, Repr

/-- Typed view of a loaded `MmapIndex`. -/
structure MmapIndex where
  dimension : Nat
  num_elements : Nat
  entry_point_id : Nat
  max_layer : Nat
  nodes : List OnDiskNode
  connections : List Nat
  quantized : List Nat
  fullVectors : List ℚ
deriving DecidableEq, Repr

namespace MmapIndex

/-- `MmapIndex::get_quantized_vector`: the `D` bytes at
`id * D` of the quantized arena; slice panic when out of range. -/
def get_quantized_vector (idx : MmapIndex) (id : Nat) : Res (List Nat) :=
  if id * idx.dimension + idx.dimension ≤ idx.quantized.length then
    Res.ok ((idx.quantized.drop (id * idx.dimension)).take idx.dimension)
  else Res.crash

/-- `MmapIndex::get_full_vector`: the `D` floats at `id * D` of the
full-precision arena; slice panic when out of range. -/
def get_full_vector (idx : MmapIndex) (id : Nat) : Res (List ℚ) :=
  if id * idx.dimension + idx.dimension ≤ idx.fullVectors.length then
    Res.ok ((idx.fullVectors.drop (id * idx.dimension)).take idx.dimension)
  else Res.crash

end MmapIndex

/-- `dot_product_u8_scalar` (`src/simd/int8.rs` lines 103-109): the
negated `i8 × u8` dot product; Rust's iterator `zip` truncates to the
shorter operand, and the `i32` accumulation and final `as f32` are
exact at these magnitudes (the AVX2 kernel computes the same sums up to
its documented saturation caveat). -/
def dot_product_u8_scalar (q : List ℤ) (v : List Nat) : ℚ :=
  (-(((q.zip v).map fun p => p.1 * (p.2 : ℤ)).sum) : ℤ)

/-- Skip `k` length-prefixed `[count, ids…]` blocks of the connection
arena starting at word offset `off` (the layer-skipping loop of
`search_graph_u8`); crash on an out-of-bounds read. -/
def skipBlocks (arena : List Nat) : Nat → Nat → Res Nat
  | 0, off => Res.ok off
  | k + 1, off => do
    let count ← getPanic arena off
    skipBlocks arena k (off + 1 + count)

/-- Read one `[count, ids…]` block at word offset `off`; crash when the
block extends past the arena. -/
def readBlock (arena : List Nat) (off : Nat) : Res (List Nat) := do
  let count ← getPanic arena off
  if off + 1 + count ≤ arena.length then
    Res.ok ((arena.drop (off + 1)).take count)
  else Res.crash

/-- The inner neighbor scan of the zoom loop of `search_graph_u8`:
greedily adopt any neighbor strictly closer than the current best. -/
def zoomNeighbors (idx : MmapIndex) (q : List ℤ) :
    List Nat → Nat → ℚ → Bool → Res (Nat × ℚ × Bool)
  | [], curr, cd, changed => Res.ok (curr, cd, changed)
  | nid :: rest, curr, cd, changed => do
    let qv ← idx.get_quantized_vector nid
    let d := dot_product_u8_scalar q qv
    if d < cd then zoomNeighbors idx q rest nid d true
    else zoomNeighbors idx q rest curr cd changed

/-- The `while changed` greedy loop of the zoom phase at one level. -/
def zoomLevel (idx : MmapIndex) (q : List ℤ) (level : Nat) :
    Nat → Nat → ℚ → Res (Nat × ℚ)
  | 0, _, _ => Res.fuelOut
  | fuel + 1, curr, cd => do
    let node ← getPanic idx.nodes curr
    let off ← skipBlocks idx.connections level (node.connections_offset / 4)
    let block ← readBlock idx.connections off
    let r ← zoomNeighbors idx q block curr cd false
    if r.2.2 then zoomLevel idx q level fuel r.1 r.2.1 else Res.ok (r.1, r.2.1)

/-- The zoom phase over the descending levels `max_layer … 1`. -/
def zoomAll (idx : MmapIndex) (q : List ℤ) (fuel : Nat) :
    List Nat → Nat → ℚ → Res (Nat × ℚ)
  | [], curr, cd => Res.ok (curr, cd)
  | level :: rest, curr, cd => do
    let r ← zoomLevel idx q level fuel curr cd
    zoomAll idx q fuel rest r.1 r.2

/-- The per-thread scratch of `search_graph_u8`: the
`VISITED_VERSIONS` vector and the `CURRENT_VERSION` counter
(thread-local statics in the source). -/
structure Scratch where
  visited : List Nat
  version : Nat
deriving DecidableEq, Repr

/-- A scratch state as left behind by any sequence of earlier queries:
every recorded visit version is at most the current version counter. -/
def Scratch.Valid (sc : Scratch) : Prop := ∀ x ∈ sc.visited, x ≤ sc.version

/-- The admission test of the layer-0 beam search (`w.len() < ef ||
dist < w.peek().unwrap()`, with the `unwrap` panic on an empty full
`w`). -/
def efAdmit (ef : Nat) (d : ℚ) (w : List (ℚ × Nat)) : Res Bool :=
  if w.length < ef then Res.ok true
  else match w.getLast? with
    | none => Res.crash
    | some worst => Res.ok (decide (d < worst.1))

/-- Trim `w` back to `ef` entries by popping the worst after a push. -/
def wTrim (ef : Nat) (w1 : List (ℚ × Nat)) : List (ℚ × Nat) :=
  if ef < w1.length then w1.dropLast else w1

/-- The neighbor scan of the layer-0 beam search of `search_graph_u8`:
a node counts as visited iff its slot holds the current query's
version; fresh nodes are stamped and admitted to the candidate heap and
to `w` when `w` has room or they beat the worst. -/
def efNeighbors (idx : MmapIndex) (q : List ℤ) (ef myv : Nat) :
    List Nat → List Nat → List (ℚ × Nat) → List (ℚ × Nat) →
    Res (List Nat × List (ℚ × Nat) × List (ℚ × Nat))
  | [], visited, cands, w => Res.ok (visited, cands, w)
  | nid :: rest, visited, cands, w => do
    let ver ← getPanic visited nid
    if ver = myv then efNeighbors idx q ef myv rest visited cands w
    else do
      let qv ← idx.get_quantized_vector nid
      let doAdd ← efAdmit ef (dot_product_u8_scalar q qv) w
      if doAdd then
        efNeighbors idx q ef myv rest (visited.set nid myv)
          (insertTail (dot_product_u8_scalar q qv, nid) cands)
          (wTrim ef (insertTail (dot_product_u8_scalar q qv, nid) w))
      else efNeighbors idx q ef myv rest (visited.set nid myv) cands w

/-- The main layer-0 loop of `search_graph_u8`: pop the closest
candidate, stop when it is worse than the worst of a full `w`
(`w.peek()` checked with `if let`, no panic), otherwise expand its
layer-0 block. -/
def efLoop (idx : MmapIndex) (q : List ℤ) (ef myv : Nat) :
    Nat → List Nat → List (ℚ × Nat) → List (ℚ × Nat) →
    Res (List (ℚ × Nat) × List Nat)
  | 0, _, _, _ => Res.fuelOut
  | fuel + 1, visited, cands, w =>
    match cands with
    | [] => Res.ok (w, visited)
    | c :: rest =>
      if (match w.getLast? with
          | some worst => decide (worst.1 < c.1) && decide (ef ≤ w.length)
          | none => false) then Res.ok (w, visited)
      else do
        let node ← getPanic idx.nodes c.2
        let block ← readBlock idx.connections (node.connections_offset / 4)
        let st ← efNeighbors idx q ef myv block visited rest w
        efLoop idx q ef myv fuel st.1 st.2.1 st.2.2

/-- `MmapIndex::search_graph_u8` (`src/storage/mmap.rs` lines 177-346):
empty index short-circuit, zoom from the entry point through levels
`max_layer … 1`, bump the thread-local version, grow the visited vector
to `num_elements`, stamp the zoom result visited, and run the layer-0
beam search; returns the contents of `w` (modelled ascending) and the
updated scratch. -/
def search_graph_u8 (idx : MmapIndex) (q : List ℤ) (ef : Nat) (sc : Scratch) :
    Res (List (ℚ × Nat) × Scratch) :=
  if idx.num_elements = 0 then Res.ok ([], sc)
  else do
    let qv ← idx.get_quantized_vector idx.entry_point_id
    let cd := dot_product_u8_scalar q qv
    let fuel := idx.connections.length + idx.num_elements + ef + 8
    let zr ← zoomAll idx q fuel
      ((List.range idx.max_layer).map fun j => idx.max_layer - j) idx.entry_point_id cd
    let myv := sc.version + 1
    let visited0 := if sc.visited.length < idx.num_elements then
        sc.visited ++ List.replicate (idx.num_elements - sc.visited.length) 0
      else sc.visited
    let visited1 ← (if zr.1 < visited0.length then Res.ok (visited0.set zr.1 myv)
      else Res.crash)
    let er ← efLoop idx q ef myv fuel visited1 [(zr.2, zr.1)] [(zr.2, zr.1)]
    Res.ok (er.1, { visited := er.2, version := myv })

/-- The rerank pass of `search_two_stage` (step 4): recompute the
distance of every coarse candidate against the full-precision arena. -/
def rerankAll (idx : MmapIndex) (query : List ℚ) :
    List (ℚ × Nat) → Res (List (ℚ × Nat))
  | [] => Res.ok []
  | c :: rest => do
    let fv ← idx.get_full_vector c.2
    let d ← sqDist query fv
    let rs ← rerankAll idx query rest
    Res.ok ((d, c.2) :: rs)

/-- `MmapIndex::search_two_stage` (`src/storage/mmap.rs` lines
128-175) with the quantized query passed explicitly (`quantize_query`
normalizes with `1/√‖v‖²`, which has no exact rational image, so the
theorems quantify over every `i8` query vector — a superset of the
reachable ones): coarse graph search with width `max(k, ef_search)`,
full-precision rerank, stable ascending sort, truncate to `k`,
returning `(id, distance)` pairs. -/
def search_two_stage (idx : MmapIndex) (q_i8 : List ℤ) (query : List ℚ)
    (k ef_search : Nat) (sc : Scratch) : Res (List (Nat × ℚ) × Scratch) := do
  let r ← search_graph_u8 idx q_i8 (max k ef_search) sc
  let results ← rerankAll idx query r.1
  Res.ok ((((sortByDist results).take k).map fun p => (p.2, p.1)), r.2)

/-! ## Claim C8: monotone results -/

theorem mem_insertTail {c b : ℚ × Nat} : ∀ {l : List (ℚ × Nat)},
    b ∈ insertTail c l → b = c ∨ b ∈ l := by
  intro l
  induction l with
  | nil => intro h; simpa [insertTail] using h
  | cons x xs ih =>
      intro h
      unfold insertTail at h
      split at h
      · rcases List.mem_cons.mp h with h1 | h1
        · exact Or.inr (by simp [h1])
        · rcases ih h1 with h2 | h2
          · exact Or.inl h2
          · exact Or.inr (List.mem_cons_of_mem _ h2)
      · rcases List.mem_cons.mp h with h1 | h1
        · exact Or.inl h1
        · exact Or.inr h1

theorem insertTail_sorted {c : ℚ × Nat} : ∀ {l : List (ℚ × Nat)},
    List.Sorted (fun a b => a.1 ≤ b.1) l →
    List.Sorted (fun a b => a.1 ≤ b.1) (insertTail c l) := by
  intro l
  induction l with
  | nil => intro _; simp [insertTail]
  | cons x xs ih =>
      intro h
      rw [List.sorted_cons] at h
      obtain ⟨hx, hxs⟩ := h
      unfold insertTail
      split
      · rw [List.sorted_cons]
        refine ⟨?_, ih hxs⟩
        intro b hb
        rcases mem_insertTail hb with rfl | hb2
        · assumption
        · exact hx b hb2
      · rw [List.sorted_cons]
        refine ⟨?_, by rw [List.sorted_cons]; exact ⟨hx, hxs⟩⟩
        intro b hb
        rcases List.mem_cons.mp hb with rfl | hb2
        · exact le_of_not_le (by assumption)
        · exact le_trans (le_of_not_le (by assumption)) (hx b hb2)

theorem sortByDist_sorted (l : List (ℚ × Nat)) :
    List.Sorted (fun a b => a.1 ≤ b.1) (sortByDist l) := by
  have hgen : ∀ acc, List.Sorted (fun a b : ℚ × Nat => a.1 ≤ b.1) acc →
      List.Sorted (fun a b => a.1 ≤ b.1)
        (l.foldl (fun acc c => insertTail c acc) acc) := by
    induction l with
    | nil => intro acc h; exact h
    | cons c cs ih =>
        intro acc h
        exact ih _ (insertTail_sorted h)
  exact hgen [] (by simp)

/-- Claim C8: for every loaded index, query, `k` and `ef_search`, when
the two-stage search returns, the returned `(id, dist)` list is
ascending in `dist` and has length at most `k`: the rerank stage sorts
all coarse candidates by full-precision distance with a stable
ascending sort and truncates to `k`. -/
theorem c8_two_stage_sorted_and_bounded (idx : MmapIndex) (q_i8 : List ℤ)
    (query : List ℚ) (k ef_search : Nat) (sc : Scratch)
    (r : List (Nat × ℚ)) (sc2 : Scratch)
    (h : search_two_stage idx q_i8 query k ef_search sc = Res.ok (r, sc2)) :
    List.Sorted (fun a b => a.2 ≤ b.2) r ∧ r.length ≤ k := by
  unfold search_two_stage at h
  simp only [bind_eq_res_bind] at h
  rcases ok_of_bind h with ⟨p, hp, h⟩
  rcases ok_of_bind h with ⟨results, hres, h⟩
  cases h
  constructor
  · have hs : List.Sorted (fun a b : ℚ × Nat => a.1 ≤ b.1)
        ((sortByDist results).take k) :=
      List.Pairwise.sublist (List.take_sublist _ _) (sortByDist_sorted results)
    exact List.pairwise_map.mpr hs
  · rw [List.length_map, List.length_take]
    omega

/-- The concrete loaded two-node index used to witness claims C8 and
C9 (1-dimensional, entry point 0, one bidirectional layer-0 edge). -/
def c89Index : MmapIndex :=
  { dimension := 1, num_elements := 2, entry_point_id := 0, max_layer := 0,
    nodes := [{ layer_count := 1, connections_offset := 0 },
              { layer_count := 1, connections_offset := 8 }],
    connections := [1, 1, 1, 0],
    quantized := [100, 200],
    fullVectors := [1 / 2, 3 / 4] }

/-- Witness for claim C8 at the concrete index `c89Index`. -/
theorem c8_two_stage_sorted_and_bounded_witness :
    List.Sorted (fun a b : Nat × ℚ => a.2 ≤ b.2) [(1, 1 / 16)] ∧
      ([((1 : Nat), (1 / 16 : ℚ))]).length ≤ 1 :=
  c8_two_stage_sorted_and_bounded c89Index [1] [1] 1 2 ⟨[], 0⟩ [(1, 1 / 16)]
    ⟨[1, 1], 1⟩ (by with_unfolding_all rfl)

/-! ## Claim C9: per-query determinism, independence from scratch

The layer-0 search reads its thread-local scratch only through the
test `visited[nid] == my_version`; we prove the whole search computes
the same result for any two scratch states left behind by earlier
queries, by coupling each run against a reference run that carries the
abstract visited set. -/

/-- Map over a `Res` outcome. -/
def resMap (f : α → β) : Res α → Res β
  | Res.ok a => Res.ok (f a)
  | Res.crash => Res.crash
  | Res.fuelOut => Res.fuelOut

/-- Well-formedness of the loaded connection data — not verified by
`load` (claim C4): the entry point and every word of the connection
arena lie below `num_elements`.  Any file written by a (repaired)
serializer satisfies this, since neighbor ids are node ids. -/
def MmapIndex.WellFormed (idx : MmapIndex) : Prop :=
  idx.entry_point_id < idx.num_elements ∧ ∀ w ∈ idx.connections, w < idx.num_elements

/-- Reference neighbor scan: the visited structure is an abstract set
of node ids rather than a stamped version array. -/
def efNeighborsSet (idx : MmapIndex) (q : List ℤ) (ef : Nat) :
    List Nat → List Nat → List (ℚ × Nat) → List (ℚ × Nat) →
    Res (List Nat × List (ℚ × Nat) × List (ℚ × Nat))
  | [], vset, cands, w => Res.ok (vset, cands, w)
  | nid :: rest, vset, cands, w =>
    if nid ∈ vset then efNeighborsSet idx q ef rest vset cands w
    else do
      let qv ← idx.get_quantized_vector nid
      let doAdd ← efAdmit ef (dot_product_u8_scalar q qv) w
      if doAdd then
        efNeighborsSet idx q ef rest (nid :: vset)
          (insertTail (dot_product_u8_scalar q qv, nid) cands)
          (wTrim ef (insertTail (dot_product_u8_scalar q qv, nid) w))
      else efNeighborsSet idx q ef rest (nid :: vset) cands w

/-- Reference layer-0 loop over the abstract visited set. -/
def efLoopSet (idx : MmapIndex) (q : List ℤ) (ef : Nat) :
    Nat → List Nat → List (ℚ × Nat) → List (ℚ × Nat) → Res (List (ℚ × Nat))
  | 0, _, _, _ => Res.fuelOut
  | fuel + 1, vset, cands, w =>
    match cands with
    | [] => Res.ok w
    | c :: rest =>
      if (match w.getLast? with
          | some worst => decide (worst.1 < c.1) && decide (ef ≤ w.length)
          | none => false) then Res.ok w
      else do
        let node ← getPanic idx.nodes c.2
        let block ← readBlock idx.connections (node.connections_offset / 4)
        let st ← efNeighborsSet idx q ef block vset rest w
        efLoopSet idx q ef fuel st.1 st.2.1 st.2.2

/-- The reference graph search: like `search_graph_u8` but with the
abstract visited set seeded with the zoom result; it mentions no
scratch at all. -/
def search_graph_set (idx : MmapIndex) (q : List ℤ) (ef : Nat) :
    Res (List (ℚ × Nat)) :=
  if idx.num_elements = 0 then Res.ok []
  else do
    let qv ← idx.get_quantized_vector idx.entry_point_id
    let cd := dot_product_u8_scalar q qv
    let fuel := idx.connections.length + idx.num_elements + ef + 8
    let zr ← zoomAll idx q fuel
      ((List.range idx.max_layer).map fun j => idx.max_layer - j) idx.entry_point_id cd
    efLoopSet idx q ef fuel [zr.1] [(zr.2, zr.1)] [(zr.2, zr.1)]

/-- Coupling invariant between a stamped version array and the
abstract visited set: the array covers all `N` node slots and a node
`< N` is stamped with the current version exactly when it is in the
set. -/
def VisRel (N myv : Nat) (visited vset : List Nat) : Prop :=
  N ≤ visited.length ∧ ∀ nid, nid < N → ((visited.get? nid = some myv) ↔ nid ∈ vset)

/-- Outcome relation for the neighbor scans: success states agree on
the heaps and remain coupled on the visited structures; failures
agree. -/
def StRel (N myv : Nat) :
    Res (List Nat × List (ℚ × Nat) × List (ℚ × Nat)) →
    Res (List Nat × List (ℚ × Nat) × List (ℚ × Nat)) → Prop
  | Res.ok st1, Res.ok st2 =>
      VisRel N myv st1.1 st2.1 ∧ st1.2.1 = st2.2.1 ∧ st1.2.2 = st2.2.2
  | Res.crash, Res.crash => True
  | Res.fuelOut, Res.fuelOut => True
  | _, _ => False

/-- Outcome relation for the layer-0 loops: the returned `w` agrees;
failures agree. -/
def LoopRel : Res (List (ℚ × Nat) × List Nat) → Res (List (ℚ × Nat)) → Prop
  | Res.ok p, Res.ok w => p.1 = w
  | Res.crash, Res.crash => True
  | Res.fuelOut, Res.fuelOut => True
  | _, _ => False

theorem visRel_stamp {N myv : Nat} {visited vset : List Nat} {nid : Nat}
    (h : VisRel N myv visited vset) (hn : nid < N) :
    VisRel N myv (visited.set nid myv) (nid :: vset) := by
  obtain ⟨hlen, hrel⟩ := h
  refine ⟨by simpa using hlen, ?_⟩
  intro j hj
  by_cases hjn : j = nid
  · subst hjn
    rw [List.get?_set_eq_of_lt _ (lt_of_lt_of_le hn hlen)]
    simp
  · rw [List.get?_set_ne _ _ (fun he => hjn he.symm)]
    rw [hrel j hj]
    simp [hjn]

theorem readBlock_ok_subset {arena : List Nat} {off : Nat} {block : List Nat}
    (h : readBlock arena off = Res.ok block) : ∀ b ∈ block, b ∈ arena := by
  unfold readBlock at h
  simp only [getPanic_eq, bind_eq_res_bind] at h
  cases hc : arena.get? off with
  | none => rw [hc] at h; exact Res.noConfusion h
  | some count =>
      rw [hc] at h
      simp only [Res.bind_ok] at h
      split at h
      · cases h
        intro b hb
        exact List.drop_subset _ _ (List.take_subset _ _ hb)
      · exact Res.noConfusion h

theorem zoomNeighbors_lt {idx : MmapIndex} {q : List ℤ} {N : Nat} :
    ∀ (block : List Nat) (curr : Nat) (cd : ℚ) (ch : Bool) (r : Nat × ℚ × Bool),
      (∀ x ∈ block, x < N) → curr < N →
      zoomNeighbors idx q block curr cd ch = Res.ok r → r.1 < N := by
  intro block
  induction block with
  | nil =>
      intro curr cd ch r hb hc h
      unfold zoomNeighbors at h
      cases h
      exact hc
  | cons nid rest ih =>
      intro curr cd ch r hb hc h
      unfold zoomNeighbors at h
      simp only [bind_eq_res_bind] at h
      rcases ok_of_bind h with ⟨qv, hqv, h⟩
      split at h
      · exact ih _ _ _ r (fun x hx => hb x (List.mem_cons_of_mem _ hx))
          (hb nid (List.mem_cons_self _ _)) h
      · exact ih _ _ _ r (fun x hx => hb x (List.mem_cons_of_mem _ hx)) hc h

theorem zoomLevel_lt {idx : MmapIndex} {q : List ℤ} {N level : Nat}
    (hwf : ∀ wd ∈ idx.connections, wd < N) :
    ∀ (fuel curr : Nat) (cd : ℚ) (r : Nat × ℚ),
      curr < N → zoomLevel idx q level fuel curr cd = Res.ok r → r.1 < N := by
  intro fuel
  induction fuel with
  | zero =>
      intro curr cd r hc h
      exact Res.noConfusion h
  | succ fuel ih =>
      intro curr cd r hc h
      unfold zoomLevel at h
      simp only [bind_eq_res_bind] at h
      rcases ok_of_bind h with ⟨node, hnode, h⟩
      rcases ok_of_bind h with ⟨off, hoff, h⟩
      rcases ok_of_bind h with ⟨block, hblock, h⟩
      rcases ok_of_bind h with ⟨zn, hzn, h⟩
      have hzn1 : zn.1 < N := zoomNeighbors_lt block curr cd false zn
        (fun x hx => hwf x (readBlock_ok_subset hblock x hx)) hc hzn
      split at h
      · exact ih _ _ r hzn1 h
      · cases h
        exact hzn1

theorem zoomAll_lt {idx : MmapIndex} {q : List ℤ} {N : Nat}
    (hwf : ∀ wd ∈ idx.connections, wd < N) :
    ∀ (levels : List Nat) (fuel curr : Nat) (cd : ℚ) (r : Nat × ℚ),
      curr < N → zoomAll idx q fuel levels curr cd = Res.ok r → r.1 < N := by
  intro levels
  induction levels with
  | nil =>
      intro fuel curr cd r hc h
      unfold zoomAll at h
      cases h
      exact hc
  | cons level rest ih =>
      intro fuel curr cd r hc h
      unfold zoomAll at h
      simp only [bind_eq_res_bind] at h
      rcases ok_of_bind h with ⟨zl, hzl, h⟩
      exact ih fuel _ _ r (zoomLevel_lt hwf fuel curr cd zl hc hzl) h

theorem efNeighbors_couple {idx : MmapIndex} {q : List ℤ} {ef myv N : Nat} :
    ∀ (block : List Nat), (∀ b ∈ block, b < N) →
    ∀ (visited vset : List Nat) (cands w : List (ℚ × Nat)),
      VisRel N myv visited vset →
      StRel N myv (efNeighbors idx q ef myv block visited cands w)
        (efNeighborsSet idx q ef block vset cands w) := by
  intro block
  induction block with
  | nil =>
      intro hb visited vset cands w hrel
      unfold efNeighbors efNeighborsSet
      exact ⟨hrel, rfl, rfl⟩
  | cons nid rest ih =>
      intro hb visited vset cands w hrel
      have hn : nid < N := hb nid (List.mem_cons_self _ _)
      have hrest : ∀ b ∈ rest, b < N := fun b hbm => hb b (List.mem_cons_of_mem _ hbm)
      obtain ⟨hlen, hrelf⟩ := hrel
      cases hver : visited.get? nid with
      | none =>
          exfalso
          rw [List.get?_eq_none] at hver
          omega
      | some ver =>
          unfold efNeighbors efNeighborsSet
          simp only [getPanic_eq, hver, bind_eq_res_bind, Res.bind_ok]
          by_cases hv : ver = myv
          · subst hv
            have hmem : nid ∈ vset := (hrelf nid hn).mp hver
            rw [if_pos rfl, if_pos hmem]
            exact ih hrest visited vset cands w ⟨hlen, hrelf⟩
          · have hmem : nid ∉ vset := by
              intro hc
              have hh := (hrelf nid hn).mpr hc
              rw [hver] at hh
              exact hv (Option.some.inj hh)
            rw [if_neg hv, if_neg hmem]
            cases hqv : idx.get_quantized_vector nid with
            | crash =>
                simp only [Res.bind_crash, StRel]
            | fuelOut =>
                simp only [Res.bind_fuelOut, StRel]
            | ok qv =>
                simp only [Res.bind_ok]
                cases hD : efAdmit ef (dot_product_u8_scalar q qv) w with
                | crash =>
                    simp only [Res.bind_crash, StRel]
                | fuelOut =>
                    simp only [Res.bind_fuelOut, StRel]
                | ok b =>
                    simp only [Res.bind_ok]
                    cases b with
                    | true =>
                        simp only [eq_self_iff_true, if_true]
                        exact ih hrest _ _ _ _ (visRel_stamp ⟨hlen, hrelf⟩ hn)
                    | false =>
                        simp only [Bool.false_eq_true, if_false]
                        exact ih hrest _ _ _ _ (visRel_stamp ⟨hlen, hrelf⟩ hn)

theorem efLoop_couple {idx : MmapIndex} {q : List ℤ} {ef myv N : Nat}
    (hwf : ∀ wd ∈ idx.connections, wd < N) :
    ∀ (fuel : Nat) (visited vset : List Nat) (cands w : List (ℚ × Nat)),
      VisRel N myv visited vset →
      LoopRel (efLoop idx q ef myv fuel visited cands w)
        (efLoopSet idx q ef fuel vset cands w) := by
  intro fuel
  induction fuel with
  | zero =>
      intro visited vset cands w hrel
      simp only [efLoop, efLoopSet, LoopRel]
  | succ fuel ih =>
      intro visited vset cands w hrel
      cases cands with
      | nil =>
          simp only [efLoop, efLoopSet]
          exact rfl
      | cons c rest =>
          simp only [efLoop, efLoopSet]
          by_cases hbrk : (match w.getLast? with
              | some worst => decide (worst.1 < c.1) && decide (ef ≤ w.length)
              | none => false) = true
          · rw [if_pos hbrk, if_pos hbrk]
            exact rfl
          · rw [if_neg hbrk, if_neg hbrk]
            simp only [bind_eq_res_bind]
            cases hnode : getPanic idx.nodes c.2 with
            | crash => simp only [Res.bind_crash, LoopRel]
            | fuelOut => simp only [Res.bind_fuelOut, LoopRel]
            | ok node =>
                simp only [Res.bind_ok]
                cases hblock : readBlock idx.connections (node.connections_offset / 4) with
                | crash => simp only [Res.bind_crash, LoopRel]
                | fuelOut => simp only [Res.bind_fuelOut, LoopRel]
                | ok block =>
                    simp only [Res.bind_ok]
                    have hbound : ∀ b ∈ block, b < N :=
                      fun b hbm => hwf b (readBlock_ok_subset hblock b hbm)
                    have hst := @efNeighbors_couple idx q ef myv N block hbound
                      visited vset rest w hrel
                    cases harr : efNeighbors idx q ef myv block visited rest w with
                    | crash =>
                        rw [harr] at hst
                        cases hset : efNeighborsSet idx q ef block vset rest w with
                        | crash => simp only [Res.bind_crash, LoopRel]
                        | fuelOut => rw [hset] at hst; exact absurd hst (by simp [StRel])
                        | ok st2 => rw [hset] at hst; exact absurd hst (by simp [StRel])
                    | fuelOut =>
                        rw [harr] at hst
                        cases hset : efNeighborsSet idx q ef block vset rest w with
                        | fuelOut => simp only [Res.bind_fuelOut, LoopRel]
                        | crash => rw [hset] at hst; exact absurd hst (by simp [StRel])
                        | ok st2 => rw [hset] at hst; exact absurd hst (by simp [StRel])
                    | ok st1 =>
                        rw [harr] at hst
                        cases hset : efNeighborsSet idx q ef block vset rest w with
                        | crash => rw [hset] at hst; exact absurd hst (by simp [StRel])
                        | fuelOut => rw [hset] at hst; exact absurd hst (by simp [StRel])
                        | ok st2 =>
                            rw [hset] at hst
                            obtain ⟨hrel2, hc2, hw2⟩ := hst
                            simp only [Res.bind_ok]
                            rw [← hc2, ← hw2]
                            exact ih st1.1 st2.1 st1.2.1 st1.2.2 hrel2

theorem searchGraph_eq_set (idx : MmapIndex) (q : List ℤ) (ef : Nat) (sc : Scratch)
    (hwf : idx.WellFormed) (hv : sc.Valid) :
    resMap Prod.fst (search_graph_u8 idx q ef sc) = search_graph_set idx q ef := by
  obtain ⟨hep, hconn⟩ := hwf
  unfold search_graph_u8 search_graph_set
  by_cases hN : idx.num_elements = 0
  · rw [if_pos hN, if_pos hN]
    rfl
  · rw [if_neg hN, if_neg hN]
    simp only [bind_eq_res_bind]
    cases hqv : idx.get_quantized_vector idx.entry_point_id with
    | crash => rfl
    | fuelOut => rfl
    | ok qv =>
        simp only [Res.bind_ok]
        cases hzr : zoomAll idx q (idx.connections.length + idx.num_elements + ef + 8)
            ((List.range idx.max_layer).map fun j => idx.max_layer - j)
            idx.entry_point_id (dot_product_u8_scalar q qv) with
        | crash => rfl
        | fuelOut => rfl
        | ok zr =>
            simp only [Res.bind_ok]
            have hzrN : zr.1 < idx.num_elements :=
              zoomAll_lt hconn _ _ _ _ zr hep hzr
            set visited0 := (if sc.visited.length < idx.num_elements then
                sc.visited ++ List.replicate (idx.num_elements - sc.visited.length) 0
              else sc.visited) with hvis0
            have hlen0 : idx.num_elements ≤ visited0.length := by
              rw [hvis0]
              by_cases hl : sc.visited.length < idx.num_elements
              · rw [if_pos hl, List.length_append, List.length_replicate]
                omega
              · rw [if_neg hl]
                omega
            rw [if_pos (lt_of_lt_of_le hzrN hlen0)]
            simp only [Res.bind_ok]
            have hold : ∀ x ∈ visited0, x ≤ sc.version := by
              intro x hx
              rw [hvis0] at hx
              by_cases hl : sc.visited.length < idx.num_elements
              · rw [if_pos hl] at hx
                rcases List.mem_append.mp hx with hx | hx
                · exact hv x hx
                · rw [List.eq_of_mem_replicate hx]
                  omega
              · rw [if_neg hl] at hx
                exact hv x hx
            have hrel0 : VisRel idx.num_elements (sc.version + 1)
                (visited0.set zr.1 (sc.version + 1)) [zr.1] := by
              apply visRel_stamp _ hzrN
              refine ⟨hlen0, ?_⟩
              intro nid hnid
              constructor
              · intro hg
                exfalso
                have := hold _ (List.get?_mem hg)
                omega
              · intro hmem
                exact absurd hmem (List.not_mem_nil _)
            have hcouple := @efLoop_couple idx q ef (sc.version + 1) idx.num_elements
              hconn (idx.connections.length + idx.num_elements + ef + 8)
              (visited0.set zr.1 (sc.version + 1)) [zr.1]
              [(zr.2, zr.1)] [(zr.2, zr.1)] hrel0
            cases hef : efLoop idx q ef (sc.version + 1)
                (idx.connections.length + idx.num_elements + ef + 8)
                (visited0.set zr.1 (sc.version + 1)) [(zr.2, zr.1)] [(zr.2, zr.1)] with
            | crash =>
                rw [hef] at hcouple
                cases hefs : efLoopSet idx q ef
                    (idx.connections.length + idx.num_elements + ef + 8)
                    [zr.1] [(zr.2, zr.1)] [(zr.2, zr.1)] with
                | crash => rfl
                | fuelOut => rw [hefs] at hcouple; exact absurd hcouple (by simp [LoopRel])
                | ok w2 => rw [hefs] at hcouple; exact absurd hcouple (by simp [LoopRel])
            | fuelOut =>
                rw [hef] at hcouple
                cases hefs : efLoopSet idx q ef
                    (idx.connections.length + idx.num_elements + ef + 8)
                    [zr.1] [(zr.2, zr.1)] [(zr.2, zr.1)] with
                | fuelOut => rfl
                | crash => rw [hefs] at hcouple; exact absurd hcouple (by simp [LoopRel])
                | ok w2 => rw [hefs] at hcouple; exact absurd hcouple (by simp [LoopRel])
            | ok er =>
                rw [hef] at hcouple
                cases hefs : efLoopSet idx q ef
                    (idx.connections.length + idx.num_elements + ef + 8)
                    [zr.1] [(zr.2, zr.1)] [(zr.2, zr.1)] with
                | crash => rw [hefs] at hcouple; exact absurd hcouple (by simp [LoopRel])
                | fuelOut => rw [hefs] at hcouple; exact absurd hcouple (by simp [LoopRel])
                | ok w2 =>
                    rw [hefs] at hcouple
                    simp only [Res.bind_ok, resMap]
                    rw [hcouple]

/-- Claim C9: two calls of the two-stage search on the same loaded
index with the same query, `k` and `ef_search` return identical
`(id, distance)` lists, whatever per-thread scratch each call starts
from — any scratch left behind by earlier queries (`Scratch.Valid`)
gives the same outcome, so scratch never leaks between queries; the
index's connection data is assumed well-formed (entry point and
neighbor ids below `num_elements`), which `load` does not itself
verify. -/
theorem c9_search_deterministic_in_scratch (idx : MmapIndex) (q_i8 : List ℤ)
    (query : List ℚ) (k ef_search : Nat) (sc1 sc2 : Scratch)
    (hwf : idx.WellFormed) (h1 : sc1.Valid) (h2 : sc2.Valid) :
    resMap Prod.fst (search_two_stage idx q_i8 query k ef_search sc1) =
    resMap Prod.fst (search_two_stage idx q_i8 query k ef_search sc2) := by
  have hg := (searchGraph_eq_set idx q_i8 (max k ef_search) sc1 hwf h1).trans
    (searchGraph_eq_set idx q_i8 (max k ef_search) sc2 hwf h2).symm
  unfold search_two_stage
  simp only [bind_eq_res_bind]
  cases hr1 : search_graph_u8 idx q_i8 (max k ef_search) sc1 with
  | crash =>
      rw [hr1] at hg
      cases hr2 : search_graph_u8 idx q_i8 (max k ef_search) sc2 with
      | crash => rfl
      | fuelOut => rw [hr2] at hg; exact absurd hg (by simp [resMap])
      | ok p2 => rw [hr2] at hg; exact absurd hg (by simp [resMap])
  | fuelOut =>
      rw [hr1] at hg
      cases hr2 : search_graph_u8 idx q_i8 (max k ef_search) sc2 with
      | fuelOut => rfl
      | crash => rw [hr2] at hg; exact absurd hg (by simp [resMap])
      | ok p2 => rw [hr2] at hg; exact absurd hg (by simp [resMap])
  | ok p1 =>
      rw [hr1] at hg
      cases hr2 : search_graph_u8 idx q_i8 (max k ef_search) sc2 with
      | crash => rw [hr2] at hg; exact absurd hg (by simp [resMap])
      | fuelOut => rw [hr2] at hg; exact absurd hg (by simp [resMap])
      | ok p2 =>
          rw [hr2] at hg
          simp only [resMap] at hg
          have hfst : p1.1 = p2.1 := Res.ok.inj hg
          simp only [Res.bind_ok]
          rw [hfst]
          cases hrr : rerankAll idx query p2.1 with
          | crash => rfl
          | fuelOut => rfl
          | ok results => simp only [Res.bind_ok, resMap]

/-- Witness for claim C9 at `c89Index`, with a fresh scratch against a
scratch left by earlier queries (visited stamp 3 at version 7). -/
theorem c9_search_deterministic_in_scratch_witness :
    resMap Prod.fst (search_two_stage c89Index [1] [1] 1 2 ⟨[], 0⟩) =
    resMap Prod.fst (search_two_stage c89Index [1] [1] 1 2 ⟨[3], 7⟩) :=
  c9_search_deterministic_in_scratch c89Index [1] [1] 1 2 ⟨[], 0⟩ ⟨[3], 7⟩
    ⟨by decide, by decide⟩
    (fun x hx => absurd hx (List.not_mem_nil x))
    (fun x hx => by rw [List.mem_singleton.mp hx]; decide)
